import Mathlib

/-!
Shallow embedding of the tree-cache core of the TreeSitter Sublime Text
plugin (`src/main.py`): scope checking, the parse/edit wrappers, the
`BUFFER_ID_TO_TREE` cache with its trim/eviction loop, the publish
mechanism, and the lifecycle / text-change event listeners.

External collaborators are modelled as follows:

* the py-tree-sitter `Tree` is represented by the text its root span
  reconstructs (spec section 4.3: `fullParse` always succeeds and yields a
  tree describing exactly the parsed source text);
* `time.monotonic()` is represented by a counter threaded through the
  engine state and incremented after each reading, so successive readings
  never decrease;
* `window.run_command("tree_sitter_update_tree", ...)` is represented by
  appending the notification payload to a log in the engine state.

Python dictionaries (`SCOPE_TO_LANGUAGE`, `BUFFER_ID_TO_TREE`) are
represented by association lists whose keys are kept duplicate-free by the
update operation, exactly like a dict: an update replaces the value of an
existing key in place and appends a fresh key at the end.
-/

set_option maxRecDepth 16384

namespace TreeSitter

/-- Language is the opaque compiled-grammar handle (`tree_sitter.Language`). -/
abbrev Language := Nat

/-- ScopeToLanguage models the global `SCOPE_TO_LANGUAGE` dict. -/
abbrev ScopeToLanguage := List (String × Language)

/-- Tree models a py-tree-sitter syntax tree by the source text its root
span reconstructs. -/
structure Tree where
  src : String
deriving DecidableEq

/-- TreeDict is the cache entry `{"tree": ..., "updated_s": ...}`. -/
structure TreeDict where
  tree : Tree
  updated_s : Nat
deriving DecidableEq

/-- Parser models `tree_sitter.Parser`: its only state visible to this
plugin is the language set by `set_language`. -/
structure Parser where
  language : Option Language
deriving DecidableEq

/-- TextChange models `sublime.TextChange`: begin offset, end offset of the
replaced region, and the inserted text. -/
structure TextChange where
  a : Nat
  b : Nat
  str : String
deriving DecidableEq

/-- View models the host data read by the engine: the syntax scope (`none`
when the view has no syntax), the buffer id, the full buffer text
(`view.substr(sublime.Region(0, view.size()))`), and the window. -/
structure View where
  scope : Option String
  buffer_id : Nat
  text : String
  window : Option Nat
deriving DecidableEq

/-- Notification is the payload of the `tree_sitter_update_tree` window
command: buffer id and scope, no tree. -/
structure Notification where
  buffer_id : Nat
  scope : String
deriving DecidableEq

/-- Cache is the type of `BUFFER_ID_TO_TREE`. -/
abbrev Cache := List (Nat × TreeDict)

def MAX_CACHED_TREES : Nat := 32

/-- lookupLang is dict lookup in `SCOPE_TO_LANGUAGE`. -/
def lookupLang : ScopeToLanguage → String → Option Language
  | [], _ => none
  | (k, v) :: rest, s => if k = s then some v else lookupLang rest s

/-- check_scope from `src/main.py`: a falsy (missing or empty) scope or one
not registered in `SCOPE_TO_LANGUAGE` yields `None`. -/
def check_scope (stl : ScopeToLanguage) (scope : Option String) : Option String :=
  match scope with
  | none => none
  | some s => if s = "" ∨ lookupLang stl s = none then none else some s

/-- set_language models `parser.set_language(SCOPE_TO_LANGUAGE[scope])`. -/
def set_language (stl : ScopeToLanguage) (_p : Parser) (scope : String) : Parser :=
  { language := lookupLang stl scope }

/-- Modelled from the spec: `parser.parse` is provided by the external
py-tree-sitter bindings (spec section 4.3 `fullParse`); it always succeeds
and returns a tree whose root span reconstructs exactly the parsed source
text, so the resulting tree is represented by that text. -/
def parser_parse (_p : Parser) (s : String) : Tree := { src := s }

/-- parse from `src/main.py`: bind the grammar for `scope`, then parse the
string. -/
def parse (stl : ScopeToLanguage) (p : Parser) (scope : String) (s : String) :
    Parser × Tree :=
  let p' := set_language stl p scope
  (p', parser_parse p' s)

/-- edit from `src/main.py`: it rebinds the parser's language and returns
the prior tree unchanged (the `change` argument is not used). -/
def edit (stl : ScopeToLanguage) (p : Parser) (scope : String)
    (_change : TextChange) (tree : Tree) : Parser × Tree :=
  (set_language stl p scope, tree)

/-- make_tree_dict stamps the entry with the current monotonic clock
reading, which the caller supplies. -/
def make_tree_dict (tree : Tree) (now : Nat) : TreeDict :=
  { tree := tree, updated_s := now }

/-- publish_tree_update from `src/main.py`: with no window it returns
immediately; otherwise it runs the `tree_sitter_update_tree` command with
the buffer id and `scope or ""`. -/
def publish_tree_update (window : Option Nat) (buffer_id : Nat) (scope : String) :
    List Notification :=
  match window with
  | none => []
  | some _ => [{ buffer_id := buffer_id, scope := if scope = "" then "" else scope }]

/-- dictGet is dict lookup in `BUFFER_ID_TO_TREE`. -/
def dictGet : Cache → Nat → Option TreeDict
  | [], _ => none
  | (k, v) :: rest, b => if k = b then some v else dictGet rest b

/-- dictSet is dict assignment `BUFFER_ID_TO_TREE[buffer_id] = d`: replace
the value of an existing key in place, append a fresh key. -/
def dictSet : Cache → Nat → TreeDict → Cache
  | [], k, v => [(k, v)]
  | (k', v') :: rest, k, v =>
    if k' = k then (k, v) :: rest else (k', v') :: dictSet rest k v

/-- dictPop is `BUFFER_ID_TO_TREE.pop(buffer_id, None)`. -/
def dictPop : Cache → Nat → Cache
  | [], _ => []
  | (k, v) :: rest, b => if k = b then rest else (k, v) :: dictPop rest b

/-- pairMin is the binary minimum in the lexicographic order that Python's
`min` uses on `(updated_s, buffer_id)` tuples (first minimum wins). -/
def pairMin (p q : Nat × Nat) : Nat × Nat :=
  if q.1 < p.1 ∨ (q.1 = p.1 ∧ q.2 < p.2) then q else p

/-- minPair is `min((d["updated_s"], buffer_id) for buffer_id, d in
BUFFER_ID_TO_TREE.items())`, or `none` on an empty cache. -/
def minPair : Cache → Option (Nat × Nat)
  | [] => none
  | (b, d) :: rest =>
    some (rest.foldl (fun acc q => pairMin acc (q.2.updated_s, q.1)) (d.updated_s, b))

/-- trimAux is the body of the while-loop of `trim_cached_trees`, run with
explicit fuel; each iteration pops the entry minimising `(updated_s,
buffer_id)` while the cache holds more than `MAX_CACHED_TREES` entries. -/
def trimAux : Nat → Cache → Cache
  | 0, c => c
  | fuel + 1, c =>
    if MAX_CACHED_TREES < c.length then
      match minPair c with
      | some (_, buffer_id) => trimAux fuel (dictPop c buffer_id)
      | none => c
    else c

/-- trim_cached_trees from `src/main.py`. The source declares a `size`
parameter (defaulting to `MAX_CACHED_TREES`) but its while-loop compares
the cache size against the global `MAX_CACHED_TREES`, not against `size`.
Fuel equal to the cache's size covers every iteration the loop can make,
since each iteration removes one entry. -/
def trim_cached_trees (size : Nat) (c : Cache) : Cache := trimAux c.length c

/-- EngineState is the mutable state the cache code touches: the
`BUFFER_ID_TO_TREE` dict, the monotonic clock, and the log of published
notifications. -/
structure EngineState where
  cache : Cache
  clock : Nat
  notifications : List Notification
deriving DecidableEq

/-- parse_view from `src/main.py`: resolve the scope (bail out otherwise),
full-parse the whole buffer text, store the stamped entry, publish if
requested, then trim. -/
def parse_view (stl : ScopeToLanguage) (p : Parser) (view : View)
    (publish_update : Bool) (st : EngineState) : Parser × EngineState :=
  match check_scope stl view.scope with
  | none => (p, st)
  | some scope =>
    let buffer_id := view.buffer_id
    let pt := parse stl p scope view.text
    let cache1 := dictSet st.cache buffer_id (make_tree_dict pt.2 st.clock)
    let notifs :=
      if publish_update then
        st.notifications ++ publish_tree_update view.window buffer_id scope
      else st.notifications
    (pt.1,
      { cache := trim_cached_trees MAX_CACHED_TREES cache1,
        clock := st.clock + 1,
        notifications := notifs })

/-- textLoopStep is one iteration of the `for change in changes` loop of
`on_text_changed_async`: full-parse if the buffer has no entry, otherwise
edit the cached tree; then store the freshly stamped entry. -/
def textLoopStep (stl : ScopeToLanguage) (scope : String) (fullText : String)
    (buffer_id : Nat) (acc : Parser × Cache × Nat) (change : TextChange) :
    Parser × Cache × Nat :=
  let pt :=
    match dictGet acc.2.1 buffer_id with
    | none => parse stl acc.1 scope fullText
    | some d => edit stl acc.1 scope change d.tree
  (pt.1, dictSet acc.2.1 buffer_id (make_tree_dict pt.2 acc.2.2), acc.2.2 + 1)

/-- on_text_changed_async from `src/main.py`: resolve the scope (bail out
otherwise), handle every change, publish once, then trim once. -/
def on_text_changed_async (stl : ScopeToLanguage) (p : Parser) (view : View)
    (changes : List TextChange) (st : EngineState) : Parser × EngineState :=
  match check_scope stl view.scope with
  | none => (p, st)
  | some scope =>
    let buffer_id := view.buffer_id
    let r := changes.foldl (textLoopStep stl scope view.text buffer_id)
      (p, st.cache, st.clock)
    let notifs := st.notifications ++ publish_tree_update view.window buffer_id scope
    (r.1,
      { cache := trim_cached_trees MAX_CACHED_TREES r.2.1,
        clock := r.2.2,
        notifications := notifs })

/-- SystemState is the engine state plus the two parser instances: the one
owned by `TreeSitterEventListener` and the one owned by
`TreeSitterTextChangeListener`. -/
structure SystemState where
  engine : EngineState
  listenerParser : Parser
  changeParser : Parser
deriving DecidableEq

/-- handle_load from `TreeSitterEventListener`. -/
def handle_load (stl : ScopeToLanguage) (st : SystemState) (view : View) :
    SystemState :=
  let r := parse_view stl st.listenerParser view true st.engine
  { st with engine := r.2, listenerParser := r.1 }

/-- on_activated_async: parse only when the buffer has no cached tree. -/
def on_activated_async (stl : ScopeToLanguage) (st : SystemState) (view : View) :
    SystemState :=
  if (dictGet st.engine.cache view.buffer_id).isSome then st
  else handle_load stl st view

/-- on_load_async: parse only when the buffer has no cached tree. -/
def on_load_async (stl : ScopeToLanguage) (st : SystemState) (view : View) :
    SystemState :=
  if (dictGet st.engine.cache view.buffer_id).isSome then st
  else handle_load stl st view

/-- on_reload_async: always reparse. -/
def on_reload_async (stl : ScopeToLanguage) (st : SystemState) (view : View) :
    SystemState :=
  handle_load stl st view

/-- on_revert_async: always reparse. -/
def on_revert_async (stl : ScopeToLanguage) (st : SystemState) (view : View) :
    SystemState :=
  handle_load stl st view

/-- Event is one host notification delivered to the engine. -/
inductive Event where
  | activated (view : View)
  | load (view : View)
  | reload (view : View)
  | revert (view : View)
  | text_changed (view : View) (changes : List TextChange)
deriving DecidableEq

/-- eventView is the view an event concerns. -/
def eventView : Event → View
  | .activated v => v
  | .load v => v
  | .reload v => v
  | .revert v => v
  | .text_changed v _ => v

/-- step dispatches one event to its listener callback, as the host's
single async worker does. -/
def step (stl : ScopeToLanguage) (st : SystemState) : Event → SystemState
  | .activated v => on_activated_async stl st v
  | .load v => on_load_async stl st v
  | .reload v => on_reload_async stl st v
  | .revert v => on_revert_async stl st v
  | .text_changed v cs =>
    let r := on_text_changed_async stl st.changeParser v cs st.engine
    { st with engine := r.2, changeParser := r.1 }

/-- run processes a list of events in FIFO arrival order. -/
def run (stl : ScopeToLanguage) (st : SystemState) (es : List Event) : SystemState :=
  es.foldl (step stl) st

/-- initState is the state right after plugin load: empty cache, no
notifications, two fresh parsers. -/
def initState : SystemState :=
  { engine := { cache := [], clock := 0, notifications := [] },
    listenerParser := { language := none },
    changeParser := { language := none } }

/-- Modelled from the spec: `getTree(bufferId)` (spec section 6) is the
repository's public read API, which is not under `src/`; it looks the
buffer id up in the cache and returns its tree, if any. -/
def get_tree (st : EngineState) (buffer_id : Nat) : Option Tree :=
  (dictGet st.cache buffer_id).map TreeDict.tree

/-- cacheWrite is one cache write as performed by both the lifecycle path
(`parse_view`) and the text-change path: store the freshly stamped entry,
then trim. -/
def cacheWrite (c : Cache) (buffer_id : Nat) (tree : Tree) (now : Nat) : Cache :=
  trim_cached_trees MAX_CACHED_TREES (dictSet c buffer_id (make_tree_dict tree now))

/-- runWrites performs a sequence of cache writes, each given as (buffer
id, tree, monotonic-clock reading). -/
def runWrites (c : Cache) (ws : List (Nat × Tree × Nat)) : Cache :=
  ws.foldl (fun acc w => cacheWrite acc w.1 w.2.1 w.2.2) c

/-- runWritesFor performs a sequence of cache writes for one fixed buffer,
starting from an empty cache. -/
def runWritesFor (b : Nat) (ws : List (Tree × Nat)) : Cache :=
  ws.foldl (fun acc w => cacheWrite acc b w.1 w.2) []

/-- entryOf is the cache entry a write produces. -/
def entryOf (w : Nat × Tree × Nat) : Nat × TreeDict :=
  (w.1, make_tree_dict w.2.1 w.2.2)

/-- lexLe is the lexicographic order on `(updated_s, buffer_id)` pairs that
Python's tuple comparison uses. -/
def lexLe (p q : Nat × Nat) : Prop :=
  p.1 < q.1 ∨ (p.1 = q.1 ∧ p.2 ≤ q.2)

/-- minFold is the fold underlying `minPair`, named so it can be reasoned
about with an arbitrary accumulator. -/
def minFold (l : Cache) (acc : Nat × Nat) : Nat × Nat :=
  l.foldl (fun acc q => pairMin acc (q.2.updated_s, q.1)) acc

/-- exScopes is a one-language scope registry used in concrete runs. -/
def exScopes : ScopeToLanguage := [("source.python", 1)]

/-- exView is a supported-scope view of buffer 5. -/
def exView : View :=
  { scope := some "source.python", buffer_id := 5, text := "x = 1\n", window := some 1 }

/-- exViewEdited is exView after inserting "y" at offset 0. -/
def exViewEdited : View :=
  { scope := some "source.python", buffer_id := 5, text := "yx = 1\n", window := some 1 }

/-- exChange is the text change inserting "y" at offset 0. -/
def exChange : TextChange := { a := 0, b := 0, str := "y" }

/-- exUnsupportedView is a view whose scope resolves to no grammar. -/
def exUnsupportedView : View :=
  { scope := some "source.cobol", buffer_id := 7, text := "hello", window := some 1 }

/-- exOtherView is a supported view of a different buffer. -/
def exOtherView : View :=
  { scope := some "source.python", buffer_id := 3, text := "z = 2\n", window := some 1 }

/-- exSmallCache is a one-entry cache, under capacity. -/
def exSmallCache : Cache := [(1, make_tree_dict { src := "a" } 10)]

/-- exBigCache is a 33-entry cache with distinct stamps, over capacity. -/
def exBigCache : Cache :=
  (List.range 33).map fun i => (i + 1, make_tree_dict { src := "t" } (10 * (i + 1)))

/-- exWrites is a sequence of 33 writes for 33 distinct buffers with
strictly increasing stamps. -/
def exWrites : List (Nat × Tree × Nat) :=
  (List.range 33).map fun i => (i, ({ src := "t" } : Tree), i)

/-- exCachedState is a system state whose cache already holds an entry for
buffer 5, stamped before the current clock reading. -/
def exCachedState : SystemState :=
  { engine :=
      { cache := [(5, make_tree_dict { src := "old" } 0)], clock := 1,
        notifications := [] },
    listenerParser := { language := none },
    changeParser := { language := none } }

/-! Basic lemmas about the dict operations. -/

theorem dictGet_dictSet_self (c : Cache) (k : Nat) (v : TreeDict) :
    dictGet (dictSet c k v) k = some v := by
  induction c with
  | nil => simp [dictSet, dictGet]
  | cons p rest ih =>
    obtain ⟨k', v'⟩ := p
    by_cases h : k' = k
    · simp [dictSet, h, dictGet]
    · simp [dictSet, h, dictGet, ih]

theorem dictGet_dictSet_ne (c : Cache) (k b : Nat) (v : TreeDict) (h : b ≠ k) :
    dictGet (dictSet c k v) b = dictGet c b := by
  induction c with
  | nil => simp [dictSet, dictGet, Ne.symm h]
  | cons p rest ih =>
    obtain ⟨k', v'⟩ := p
    by_cases hk : k' = k
    · subst hk
      simp [dictSet, dictGet, Ne.symm h]
    · simp [dictSet, hk, dictGet, ih]

theorem dictSet_of_not_mem (c : Cache) (k : Nat) (v : TreeDict)
    (h : k ∉ c.map Prod.fst) : dictSet c k v = c ++ [(k, v)] := by
  induction c with
  | nil => simp [dictSet]
  | cons p rest ih =>
    obtain ⟨k', v'⟩ := p
    simp only [List.map_cons, List.mem_cons] at h
    push_neg at h
    simp [dictSet, Ne.symm h.1, ih h.2]

theorem dictSet_dictSet (c : Cache) (k : Nat) (v w : TreeDict) :
    dictSet (dictSet c k v) k w = dictSet c k w := by
  induction c with
  | nil => simp [dictSet]
  | cons p rest ih =>
    obtain ⟨k', v'⟩ := p
    by_cases h : k' = k
    · simp [dictSet, h]
    · simp [dictSet, h, ih]

theorem mem_dictSet (c : Cache) (k : Nat) (v : TreeDict) (p : Nat × TreeDict)
    (h : p ∈ dictSet c k v) : p = (k, v) ∨ p ∈ c := by
  induction c with
  | nil => simpa [dictSet] using h
  | cons q rest ih =>
    obtain ⟨k', v'⟩ := q
    by_cases hk : k' = k
    · simp only [dictSet, if_pos hk, List.mem_cons] at h
      rcases h with h | h
      · exact Or.inl h
      · exact Or.inr (List.mem_cons_of_mem _ h)
    · simp only [dictSet, if_neg hk, List.mem_cons] at h
      rcases h with h | h
      · exact Or.inr (by simp [h])
      · rcases ih h with h' | h'
        · exact Or.inl h'
        · exact Or.inr (List.mem_cons_of_mem _ h')

theorem mem_map_fst_dictSet (c : Cache) (k : Nat) (v : TreeDict) (x : Nat)
    (h : x ∈ (dictSet c k v).map Prod.fst) : x ∈ c.map Prod.fst ∨ x = k := by
  rcases List.mem_map.mp h with ⟨p, hp, hx⟩
  rcases mem_dictSet c k v p hp with h' | h'
  · right
    rw [← hx, h']
  · left
    exact List.mem_map.mpr ⟨p, h', hx⟩

theorem nodup_map_fst_dictSet (c : Cache) (k : Nat) (v : TreeDict)
    (h : (c.map Prod.fst).Nodup) : ((dictSet c k v).map Prod.fst).Nodup := by
  induction c with
  | nil => simp [dictSet]
  | cons p rest ih =>
    obtain ⟨k', v'⟩ := p
    simp only [List.map_cons, List.nodup_cons] at h
    by_cases hk : k' = k
    · subst hk
      simpa [dictSet, List.nodup_cons] using h
    · simp only [dictSet, if_neg hk, List.map_cons]
      refine List.nodup_cons.mpr ⟨?_, ih h.2⟩
      intro hmem
      rcases mem_map_fst_dictSet rest k v k' hmem with h' | h'
      · exact h.1 h'
      · exact hk h'

theorem dictPop_cons_self (c : Cache) (k : Nat) (v : TreeDict) :
    dictPop ((k, v) :: c) k = c := by
  simp [dictPop]

theorem dictPop_sublist (c : Cache) (k : Nat) : (dictPop c k).Sublist c := by
  induction c with
  | nil => simp [dictPop]
  | cons p rest ih =>
    obtain ⟨k', v'⟩ := p
    by_cases h : k' = k
    · simpa [dictPop, h] using List.sublist_cons_self (k, v') rest
    · simpa [dictPop, h] using ih.cons₂ (k', v')

theorem mem_dictPop (c : Cache) (k : Nat) (p : Nat × TreeDict)
    (h : p ∈ dictPop c k) : p ∈ c :=
  (dictPop_sublist c k).mem h

theorem dictGet_dictPop_ne (c : Cache) (k b : Nat) (h : b ≠ k) :
    dictGet (dictPop c k) b = dictGet c b := by
  induction c with
  | nil => simp [dictPop]
  | cons p rest ih =>
    obtain ⟨k', v'⟩ := p
    by_cases hk : k' = k
    · subst hk
      simp [dictPop, dictGet, Ne.symm h]
    · by_cases hb : k' = b
      · subst hb
        simp [dictPop, hk, dictGet, h]
      · simp [dictPop, hk, dictGet, hb, ih]

theorem dictGet_none_dictPop (c : Cache) (k b : Nat)
    (h : dictGet c b = none) : dictGet (dictPop c k) b = none := by
  induction c with
  | nil => simpa [dictPop] using h
  | cons p rest ih =>
    obtain ⟨k', v'⟩ := p
    simp only [dictGet] at h
    by_cases hb : k' = b
    · simp [hb] at h
    · simp only [if_neg hb] at h
      by_cases hk : k' = k
      · simpa [dictPop, hk] using h
      · simp [dictPop, hk, dictGet, hb, ih h]

theorem dictPop_length (c : Cache) (k : Nat) (h : k ∈ c.map Prod.fst) :
    (dictPop c k).length + 1 = c.length := by
  induction c with
  | nil => simp at h
  | cons p rest ih =>
    obtain ⟨k', v'⟩ := p
    by_cases hk : k' = k
    · simp [dictPop, hk]
    · simp only [List.map_cons, List.mem_cons] at h
      rcases h with h | h




      · exact absurd h.symm hk
      · simp [dictPop, hk, ih h]

theorem dictGet_mem (c : Cache) (b : Nat) (d : TreeDict)
    (h : dictGet c b = some d) : (b, d) ∈ c := by
  induction c with
  | nil => simp [dictGet] at h
  | cons p rest ih =>
    obtain ⟨k', v'⟩ := p
    by_cases hb : k' = b
    · subst hb
      simp [dictGet] at h
      simp [h]
    · simp only [dictGet, if_neg hb] at h
      exact List.mem_cons_of_mem _ (ih h)

theorem dictGet_eq_none_iff (c : Cache) (b : Nat) :
    dictGet c b = none ↔ b ∉ c.map Prod.fst := by
  induction c with
  | nil => simp [dictGet]
  | cons p rest ih =>
    obtain ⟨k', v'⟩ := p
    by_cases hb : k' = b
    · subst hb
      simp [dictGet]
    · simp [dictGet, hb, ih, Ne.symm hb]

theorem dictGet_unique (c : Cache) (b : Nat) (d : TreeDict)
    (hnd : (c.map Prod.fst).Nodup) (h : (b, d) ∈ c) : dictGet c b = some d := by
  induction c with
  | nil => simp at h
  | cons p rest ih =>
    obtain ⟨k', v'⟩ := p
    simp only [List.map_cons, List.nodup_cons] at hnd
    rcases List.mem_cons.mp h with h' | h'
    · rw [Prod.mk.injEq] at h'
      simp [dictGet, h'.1, h'.2]
    · have hb : k' ≠ b := by
        intro hk
        subst hk
        exact hnd.1 (List.mem_map.mpr ⟨(k', d), h', rfl⟩)
      simp [dictGet, hb, ih hnd.2 h']

theorem nodup_map_fst_dictPop (c : Cache) (k : Nat)
    (h : (c.map Prod.fst).Nodup) : ((dictPop c k).map Prod.fst).Nodup :=
  ((dictPop_sublist c k).map Prod.fst).nodup h

theorem exists_other_key (c : Cache) (b : Nat)
    (hnd : (c.map Prod.fst).Nodup) (hlen : 2 ≤ c.length) :
    ∃ p ∈ c, p.1 ≠ b := by
  match c, hlen with
  | p :: q :: rest, _ =>
    by_cases hp : p.1 = b
    · refine ⟨q, by simp, ?_⟩
      intro hq
      simp only [List.map_cons, List.nodup_cons] at hnd
      exact hnd.1 (by simp [hp, ← hq])
    · exact ⟨p, by simp, hp⟩

/-! Lemmas about the lexicographic minimum used by the eviction loop. -/

theorem lexLe_refl (p : Nat × Nat) : lexLe p p := by
  simp [lexLe]

theorem lexLe_trans (p q r : Nat × Nat) (h1 : lexLe p q) (h2 : lexLe q r) :
    lexLe p r := by
  rcases p with ⟨a1, b1⟩
  rcases q with ⟨a2, b2⟩
  rcases r with ⟨a3, b3⟩
  simp only [lexLe] at h1 h2 ⊢
  omega

theorem pairMin_eq_or (p q : Nat × Nat) : pairMin p q = p ∨ pairMin p q = q := by
  unfold pairMin
  split
  · exact Or.inr rfl
  · exact Or.inl rfl

theorem lexLe_pairMin_left (p q : Nat × Nat) : lexLe (pairMin p q) p := by
  rcases p with ⟨a1, b1⟩
  rcases q with ⟨a2, b2⟩
  dsimp only [pairMin, lexLe]
  split_ifs with h <;> omega

theorem lexLe_pairMin_right (p q : Nat × Nat) : lexLe (pairMin p q) q := by
  rcases p with ⟨a1, b1⟩
  rcases q with ⟨a2, b2⟩
  dsimp only [pairMin, lexLe]
  split_ifs with h <;> omega

theorem minFold_mem (l : Cache) :
    ∀ acc : Nat × Nat, minFold l acc = acc ∨
      ∃ p ∈ l, minFold l acc = (p.2.updated_s, p.1) := by
  induction l with
  | nil => intro acc; exact Or.inl rfl
  | cons q rest ih =>
    intro acc
    have hstep : minFold (q :: rest) acc = minFold rest (pairMin acc (q.2.updated_s, q.1)) := rfl
    rcases pairMin_eq_or acc (q.2.updated_s, q.1) with hpm | hpm
    · rcases ih (pairMin acc (q.2.updated_s, q.1)) with h | ⟨p, hp, hres⟩
      · rw [hstep, h, hpm]
        exact Or.inl rfl
      · exact Or.inr ⟨p, List.mem_cons_of_mem _ hp, hstep ▸ hres⟩
    · rcases ih (pairMin acc (q.2.updated_s, q.1)) with h | ⟨p, hp, hres⟩
      · exact Or.inr ⟨q, List.mem_cons_self _ _, by rw [hstep, h, hpm]⟩
      · exact Or.inr ⟨p, List.mem_cons_of_mem _ hp, hstep ▸ hres⟩

theorem minFold_le_acc (l : Cache) :
    ∀ acc : Nat × Nat, lexLe (minFold l acc) acc := by
  induction l with
  | nil => intro acc; exact lexLe_refl acc
  | cons q rest ih =>
    intro acc
    have hstep : minFold (q :: rest) acc = minFold rest (pairMin acc (q.2.updated_s, q.1)) := rfl
    rw [hstep]
    exact lexLe_trans _ _ _ (ih _) (lexLe_pairMin_left _ _)

theorem minFold_le_mem (l : Cache) :
    ∀ (acc : Nat × Nat) (p : Nat × TreeDict), p ∈ l →
      lexLe (minFold l acc) (p.2.updated_s, p.1) := by
  induction l with
  | nil => intro acc p hp; simp at hp
  | cons q rest ih =>
    intro acc p hp
    have hstep : minFold (q :: rest) acc = minFold rest (pairMin acc (q.2.updated_s, q.1)) := rfl
    rcases List.mem_cons.mp hp with h | h
    · subst h
      rw [hstep]
      exact lexLe_trans _ _ _ (minFold_le_acc _ _) (lexLe_pairMin_right _ _)
    · rw [hstep]
      exact ih _ _ h

theorem minFold_keep (l : Cache) :
    ∀ acc : Nat × Nat, (∀ p ∈ l, acc.1 < p.2.updated_s) → minFold l acc = acc := by
  induction l with
  | nil => intro acc _; rfl
  | cons q rest ih =>
    intro acc h
    have hq : acc.1 < q.2.updated_s := h q (List.mem_cons_self _ _)
    have hpm : pairMin acc (q.2.updated_s, q.1) = acc := by
      rcases acc with ⟨a1, b1⟩
      unfold pairMin
      rw [if_neg]
      simp only at hq
      omega
    have hstep : minFold (q :: rest) acc = minFold rest (pairMin acc (q.2.updated_s, q.1)) := rfl
    rw [hstep, hpm]
    exact ih acc fun p hp => h p (List.mem_cons_of_mem _ hp)

theorem minPair_spec (c : Cache) (t b : Nat) (h : minPair c = some (t, b)) :
    (∃ d, (b, d) ∈ c ∧ d.updated_s = t) ∧
      ∀ p ∈ c, t < p.2.updated_s ∨ (t = p.2.updated_s ∧ b ≤ p.1) := by
  match c with
  | [] => simp [minPair] at h
  | (b0, d0) :: rest =>
    have heq : minFold rest (d0.updated_s, b0) = (t, b) := by
      simpa [minPair, minFold] using h
    constructor
    · rcases minFold_mem rest (d0.updated_s, b0) with hm | ⟨p, hp, hres⟩
      · have h2 : (d0.updated_s, b0) = (t, b) := by
          rw [← hm]
          exact heq
        obtain ⟨ht, hb⟩ := Prod.mk.injEq _ _ _ _ |>.mp h2
        refine ⟨d0, ?_, ht⟩
        rw [← hb]
        exact List.mem_cons_self _ _
      · have h2 : (p.2.updated_s, p.1) = (t, b) := by
          rw [← hres]
          exact heq
        obtain ⟨ht, hb⟩ := Prod.mk.injEq _ _ _ _ |>.mp h2
        refine ⟨p.2, ?_, ht⟩
        rw [← hb, Prod.mk.eta]
        exact List.mem_cons_of_mem _ hp
    · intro p hp
      have hle : lexLe (t, b) (p.2.updated_s, p.1) := by
        rcases List.mem_cons.mp hp with h' | h'
        · subst h'
          rw [← heq]
          exact minFold_le_acc rest (d0.updated_s, b0)
        · rw [← heq]
          exact minFold_le_mem rest _ p h'
      simpa [lexLe] using hle

theorem minPair_of_head_lt (b : Nat) (d : TreeDict) (rest : Cache)
    (h : ∀ p ∈ rest, d.updated_s < p.2.updated_s) :
    minPair ((b, d) :: rest) = some (d.updated_s, b) := by
  have := minFold_keep rest (d.updated_s, b) (by simpa using h)
  simpa [minPair, minFold] using this

theorem minPair_isSome (c : Cache) (h : c ≠ []) : ∃ t b, minPair c = some (t, b) := by
  match c, h with
  | (b0, d0) :: rest, _ => exact ⟨_, _, rfl⟩

/-! Lemmas about the trim loop. -/

theorem trimAux_of_le (f : Nat) (c : Cache) (h : c.length ≤ MAX_CACHED_TREES) :
    trimAux f c = c := by
  cases f with
  | zero => rfl
  | succ f => simp [trimAux, Nat.not_lt.mpr h]

theorem trimAux_length (f : Nat) :
    ∀ c : Cache, c.length ≤ MAX_CACHED_TREES + f →
      (trimAux f c).length ≤ MAX_CACHED_TREES := by
  induction f with
  | zero => intro c h; simpa [trimAux] using h
  | succ f ih =>
    intro c h
    by_cases hlt : MAX_CACHED_TREES < c.length
    · have hne : c ≠ [] := by
        intro hc
        rw [hc] at hlt
        simp [MAX_CACHED_TREES] at hlt
      obtain ⟨t, b, hmin⟩ := minPair_isSome c hne
      have hb : b ∈ c.map Prod.fst := by
        obtain ⟨d, hd, _⟩ := (minPair_spec c t b hmin).1
        exact List.mem_map.mpr ⟨(b, d), hd, rfl⟩
      have hlen := dictPop_length c b hb
      simp only [trimAux, if_pos hlt, hmin]
      exact ih (dictPop c b) (by omega)
    · rw [show trimAux (f + 1) c = c by simp [trimAux, hlt]]
      omega

theorem trim_cached_trees_length (s : Nat) (c : Cache) :
    (trim_cached_trees s c).length ≤ MAX_CACHED_TREES :=
  trimAux_length c.length c (by omega)

theorem trim_of_le (s : Nat) (c : Cache) (h : c.length ≤ MAX_CACHED_TREES) :
    trim_cached_trees s c = c :=
  trimAux_of_le c.length c h

theorem dictGet_none_trimAux (f : Nat) :
    ∀ c : Cache, ∀ b : Nat, dictGet c b = none →
      dictGet (trimAux f c) b = none := by
  induction f with
  | zero => intro c b h; exact h
  | succ f ih =>
    intro c b h
    by_cases hlt : MAX_CACHED_TREES < c.length
    · rcases hmp : minPair c with _ | ⟨t, b0⟩
      · simpa [trimAux, hlt, hmp] using h
      · simp only [trimAux, if_pos hlt, hmp]
        exact ih _ _ (dictGet_none_dictPop c b0 b h)
    · simpa [trimAux, hlt] using h

theorem trimAux_survivor (f : Nat) :
    ∀ (c : Cache) (b : Nat) (d : TreeDict), (c.map Prod.fst).Nodup →
      dictGet c b = some d →
      (∀ p ∈ c, p.1 ≠ b → p.2.updated_s < d.updated_s) →
      dictGet (trimAux f c) b = some d := by
  induction f with
  | zero => intro c b d _ h _; exact h
  | succ f ih =>
    intro c b d hnd hget hmax
    by_cases hlt : MAX_CACHED_TREES < c.length
    · have hne : c ≠ [] := by
        intro hc
        rw [hc] at hlt
        simp [MAX_CACHED_TREES] at hlt
      obtain ⟨t, b0, hmin⟩ := minPair_isSome c hne
      obtain ⟨⟨d0, hd0, hts0⟩, hminle⟩ := minPair_spec c t b0 hmin
      have hb0 : b0 ≠ b := by
        intro hb0
        subst hb0
        have : d0 = d := by
          have := dictGet_unique c b0 d0 hnd hd0
          rw [this] at hget
          exact Option.some.injEq _ _ |>.mp hget
        subst this
        obtain ⟨p, hp, hpne⟩ := exists_other_key c b0 hnd
          (by
            have : MAX_CACHED_TREES = 32 := rfl
            omega)
        have h1 : p.2.updated_s < d0.updated_s := hmax p hp hpne
        have h2 := hminle p hp
        omega
      simp only [trimAux, if_pos hlt, hmin]
      refine ih (dictPop c b0) b d (nodup_map_fst_dictPop c b0 hnd) ?_ ?_
      · rw [dictGet_dictPop_ne c b0 b (Ne.symm hb0)]
        exact hget
      · intro p hp hpne
        exact hmax p (mem_dictPop c b0 p hp) hpne
    · rw [trimAux_of_le _ _ (Nat.not_lt.mp hlt)]
      exact hget

theorem trim_survivor (s : Nat) (c : Cache) (b : Nat) (d : TreeDict)
    (hnd : (c.map Prod.fst).Nodup) (hget : dictGet c b = some d)
    (hmax : ∀ p ∈ c, p.1 ≠ b → p.2.updated_s < d.updated_s) :
    dictGet (trim_cached_trees s c) b = some d :=
  trimAux_survivor c.length c b d hnd hget hmax

/-! Characterizations of the two event paths. -/

theorem check_scope_some (stl : ScopeToLanguage) (sc : Option String) (s : String)
    (h : check_scope stl sc = some s) :
    sc = some s ∧ s ≠ "" ∧ lookupLang stl s ≠ none := by
  match sc with
  | none => simp [check_scope] at h
  | some s' =>
    simp only [check_scope] at h
    by_cases hc : s' = "" ∨ lookupLang stl s' = none
    · simp [hc] at h
    · rw [if_neg hc] at h
      push_neg at hc
      obtain rfl : s' = s := Option.some.injEq _ _ |>.mp h
      exact ⟨rfl, hc.1, hc.2⟩

theorem parse_view_none (stl : ScopeToLanguage) (p : Parser) (view : View)
    (pub : Bool) (st : EngineState) (h : check_scope stl view.scope = none) :
    parse_view stl p view pub st = (p, st) := by
  unfold parse_view
  rw [h]

theorem parse_view_some (stl : ScopeToLanguage) (p : Parser) (view : View)
    (pub : Bool) (st : EngineState) (s : String)
    (h : check_scope stl view.scope = some s) :
    parse_view stl p view pub st =
      (set_language stl p s,
        { cache := trim_cached_trees MAX_CACHED_TREES
            (dictSet st.cache view.buffer_id
              (make_tree_dict { src := view.text } st.clock)),
          clock := st.clock + 1,
          notifications :=
            if pub then
              st.notifications ++ publish_tree_update view.window view.buffer_id s
            else st.notifications }) := by
  unfold parse_view
  rw [h]
  rfl

theorem on_text_changed_none (stl : ScopeToLanguage) (p : Parser) (view : View)
    (cs : List TextChange) (st : EngineState)
    (h : check_scope stl view.scope = none) :
    on_text_changed_async stl p view cs st = (p, st) := by
  unfold on_text_changed_async
  rw [h]

theorem on_text_changed_some (stl : ScopeToLanguage) (p : Parser) (view : View)
    (cs : List TextChange) (st : EngineState) (s : String)
    (h : check_scope stl view.scope = some s) :
    on_text_changed_async stl p view cs st =
      ((cs.foldl (textLoopStep stl s view.text view.buffer_id) (p, st.cache, st.clock)).1,
        { cache := trim_cached_trees MAX_CACHED_TREES
            (cs.foldl (textLoopStep stl s view.text view.buffer_id)
              (p, st.cache, st.clock)).2.1,
          clock := (cs.foldl (textLoopStep stl s view.text view.buffer_id)
            (p, st.cache, st.clock)).2.2,
          notifications :=
            st.notifications ++ publish_tree_update view.window view.buffer_id s }) := by
  unfold on_text_changed_async
  rw [h]

theorem textLoopStep_cached (stl : ScopeToLanguage) (s txt : String) (bid : Nat)
    (p : Parser) (cache : Cache) (clock : Nat) (ch : TextChange) (d : TreeDict)
    (h : dictGet cache bid = some d) :
    textLoopStep stl s txt bid (p, cache, clock) ch =
      (set_language stl p s, dictSet cache bid (make_tree_dict d.tree clock),
        clock + 1) := by
  simp [textLoopStep, h, edit]

theorem textLoopStep_uncached (stl : ScopeToLanguage) (s txt : String) (bid : Nat)
    (p : Parser) (cache : Cache) (clock : Nat) (ch : TextChange)
    (h : dictGet cache bid = none) :
    textLoopStep stl s txt bid (p, cache, clock) ch =
      (set_language stl p s, dictSet cache bid (make_tree_dict { src := txt } clock),
        clock + 1) := by
  simp [textLoopStep, h, parse, parser_parse]

theorem textLoop_cached (stl : ScopeToLanguage) (s txt : String) (bid : Nat) :
    ∀ (cs : List TextChange) (p : Parser) (cache : Cache) (clock : Nat)
      (d : TreeDict), dictGet cache bid = some d →
      ((cs.foldl (textLoopStep stl s txt bid) (p, cache, clock)).2.1 =
          if cs.isEmpty then cache
          else dictSet cache bid (make_tree_dict d.tree (clock + cs.length - 1))) ∧
        (cs.foldl (textLoopStep stl s txt bid) (p, cache, clock)).2.2 =
          clock + cs.length := by
  intro cs
  induction cs with
  | nil =>
    intro p cache clock d _
    simp
  | cons ch rest ih =>
    intro p cache clock d h
    rw [List.foldl_cons, textLoopStep_cached stl s txt bid p cache clock ch d h]
    have hget : dictGet (dictSet cache bid (make_tree_dict d.tree clock)) bid =
        some (make_tree_dict d.tree clock) := dictGet_dictSet_self _ _ _
    obtain ⟨hc, hk⟩ := ih (set_language stl p s)
      (dictSet cache bid (make_tree_dict d.tree clock)) (clock + 1)
      (make_tree_dict d.tree clock) hget
    constructor
    · rw [hc]
      by_cases hr : rest = []
      · subst hr
        simp [make_tree_dict]
      · rw [if_neg (by simpa using hr), if_neg (by simp [hr])]
        rw [dictSet_dictSet]
        have harith : clock + 1 + rest.length - 1 = clock + (ch :: rest).length - 1 := by
          simp only [List.length_cons]
          omega
        simp [make_tree_dict, harith]
    · rw [hk]
      simp only [List.length_cons]
      omega

theorem textLoop_uncached (stl : ScopeToLanguage) (s txt : String) (bid : Nat)
    (cs : List TextChange) (p : Parser) (cache : Cache) (clock : Nat)
    (h : dictGet cache bid = none) (hne : cs ≠ []) :
    ((cs.foldl (textLoopStep stl s txt bid) (p, cache, clock)).2.1 =
        dictSet cache bid (make_tree_dict { src := txt } (clock + cs.length - 1))) ∧
      (cs.foldl (textLoopStep stl s txt bid) (p, cache, clock)).2.2 =
        clock + cs.length := by
  match cs, hne with
  | ch :: rest, _ =>
    rw [List.foldl_cons, textLoopStep_uncached stl s txt bid p cache clock ch h]
    have hget : dictGet (dictSet cache bid (make_tree_dict { src := txt } clock)) bid =
        some (make_tree_dict { src := txt } clock) := dictGet_dictSet_self _ _ _
    obtain ⟨hc, hk⟩ := textLoop_cached stl s txt bid rest (set_language stl p s)
      (dictSet cache bid (make_tree_dict { src := txt } clock)) (clock + 1)
      (make_tree_dict { src := txt } clock) hget
    constructor
    · rw [hc]
      by_cases hr : rest = []
      · subst hr
        simp [make_tree_dict]
      · rw [if_neg (by simpa using hr), dictSet_dictSet]
        have harith : clock + 1 + rest.length - 1 = clock + (ch :: rest).length - 1 := by
          simp only [List.length_cons]
          omega
        simp [make_tree_dict, harith]
    · rw [hk]
      simp only [List.length_cons]
      omega

theorem textLoop_other (stl : ScopeToLanguage) (s txt : String) (bid : Nat) :
    ∀ (cs : List TextChange) (p : Parser) (cache : Cache) (clock : Nat) (b : Nat),
      b ≠ bid →
      dictGet ((cs.foldl (textLoopStep stl s txt bid) (p, cache, clock)).2.1) b =
        dictGet cache b := by
  intro cs
  induction cs with
  | nil =>
    intro p cache clock b _
    rfl
  | cons ch rest ih =>
    intro p cache clock b hb
    rw [List.foldl_cons]
    rcases hget : dictGet cache bid with _ | d
    · rw [textLoopStep_uncached stl s txt bid p cache clock ch hget,
        ih _ _ _ b hb, dictGet_dictSet_ne cache bid b _ hb]
    · rw [textLoopStep_cached stl s txt bid p cache clock ch d hget,
        ih _ _ _ b hb, dictGet_dictSet_ne cache bid b _ hb]

theorem dictGet_none_trim (s : Nat) (c : Cache) (b : Nat)
    (h : dictGet c b = none) : dictGet (trim_cached_trees s c) b = none :=
  dictGet_none_trimAux c.length c b h

/-! Claim theorems and their witnesses. -/

/-- Claim C1, evaluated on the code at the failing input: buffer 5 is
loaded with text "x = 1\n" (full parse), then receives an edit event that
inserts "y" at offset 0, making the buffer text "yx = 1\n". The entry the
text-change path stores afterwards holds the unchanged prior tree, whose
root span still reconstructs the pre-edit text "x = 1\n" and not the
edited text, because edit in src/main.py only rebinds the parser's
language and returns the prior tree; this refutes the claim that the
stored tree incorporates the edit's text delta. -/
theorem edit_event_leaves_tree_stale :
    get_tree (run exScopes initState
        [Event.load exView, Event.text_changed exViewEdited [exChange]]).engine 5 =
      some { src := "x = 1\n" } ∧
      ({ src := "x = 1\n" } : Tree) ≠ ({ src := "yx = 1\n" } : Tree) := by
  constructor
  · rfl
  · decide

/-- Claim C8, evaluated on the code at the failing input: calling
trim_cached_trees with size 2 on a three-entry cache (stamps 10, 20, 30)
removes nothing, although the cache is over the requested capacity,
because the loop compares against the global MAX_CACHED_TREES instead of
the size argument; the claim that eviction respects the maxSize argument
fails. -/
theorem trim_ignores_size_argument :
    trim_cached_trees 2
        [(1, make_tree_dict { src := "a" } 10), (2, make_tree_dict { src := "b" } 20),
          (3, make_tree_dict { src := "c" } 30)] =
      [(1, make_tree_dict { src := "a" } 10), (2, make_tree_dict { src := "b" } 20),
        (3, make_tree_dict { src := "c" } 30)] ∧
      2 < ([(1, make_tree_dict { src := "a" } 10),
        (2, make_tree_dict { src := "b" } 20),
        (3, make_tree_dict { src := "c" } 30)] : Cache).length := by
  constructor
  · rfl
  · decide

/-- Claim C6, counterexample: the language-loading path calls parse_view
with publish_update false; the cache write happens (buffer 5 gains a
fresh entry) yet no notification at all is broadcast, refuting the claim
that every cache write is followed by its own notification. -/
theorem notify_not_after_every_write :
    (parse_view exScopes { language := none } exView false
        { cache := [], clock := 0, notifications := [] }).2.notifications = [] ∧
      dictGet (parse_view exScopes { language := none } exView false
          { cache := [], clock := 0, notifications := [] }).2.cache 5 =
        some (make_tree_dict { src := "x = 1\n" } 0) := by
  constructor
  · rfl
  · rfl

/-- Claim C6 as amended: notifications are per event, not per write. Each
text-change event whose scope resolves and whose view has a window
broadcasts exactly one notification carrying the buffer id and scope (a
payload with no tree), no matter how many individual cache writes the
event performs; a lifecycle parse with publishing enabled broadcasts
exactly one as well, and a parse with publishing disabled (the
language-loading path) broadcasts none. -/
theorem one_notification_per_event (stl : ScopeToLanguage) (p : Parser)
    (view : View) (cs : List TextChange) (st : EngineState) (s : String) (w : Nat)
    (hs : check_scope stl view.scope = some s) (hw : view.window = some w) :
    (on_text_changed_async stl p view cs st).2.notifications =
        st.notifications ++ [{ buffer_id := view.buffer_id, scope := s }] ∧
      (parse_view stl p view true st).2.notifications =
        st.notifications ++ [{ buffer_id := view.buffer_id, scope := s }] ∧
      (parse_view stl p view false st).2.notifications = st.notifications := by
  have hs' := check_scope_some stl view.scope s hs
  have hpub : publish_tree_update view.window view.buffer_id s =
      [{ buffer_id := view.buffer_id, scope := s }] := by
    rw [hw]
    simp [publish_tree_update, hs'.2.1]
  refine ⟨?_, ?_, ?_⟩
  · rw [on_text_changed_some stl p view cs st s hs]
    show st.notifications ++ publish_tree_update view.window view.buffer_id s =
      st.notifications ++ [{ buffer_id := view.buffer_id, scope := s }]
    rw [hpub]
  · rw [parse_view_some stl p view true st s hs]
    show st.notifications ++ publish_tree_update view.window view.buffer_id s =
      st.notifications ++ [{ buffer_id := view.buffer_id, scope := s }]
    rw [hpub]
  · rw [parse_view_some stl p view false st s hs]
    rfl

/-- Witness for one_notification_per_event at a concrete input: a
two-change text event and both parse_view modes on buffer 5. -/
theorem one_notification_per_event_witness :
    check_scope exScopes exView.scope = some "source.python" ∧
      exView.window = some 1 ∧
      ((on_text_changed_async exScopes { language := none } exView
            [exChange, exChange] { cache := [], clock := 0, notifications := [] }).2.notifications =
          [] ++ [{ buffer_id := 5, scope := "source.python" }] ∧
        (parse_view exScopes { language := none } exView true
            { cache := [], clock := 0, notifications := [] }).2.notifications =
          [] ++ [{ buffer_id := 5, scope := "source.python" }] ∧
        (parse_view exScopes { language := none } exView false
            { cache := [], clock := 0, notifications := [] }).2.notifications = []) :=
  ⟨by decide, by decide,
    one_notification_per_event exScopes { language := none } exView
      [exChange, exChange] { cache := [], clock := 0, notifications := [] }
      "source.python" 1 (by decide) (by decide)⟩

/-- Claim C3: for any size argument, a cache at or under MAX_CACHED_TREES
capacity is returned untouched (no age-based eviction), and when the
cache is over capacity each eviction step removes exactly the entry
minimising (updated_s, buffer_id): smallest timestamp first, ties broken
by smallest buffer id. -/
theorem trim_evicts_lex_min_entry (s : Nat) (c : Cache) :
    (c.length ≤ MAX_CACHED_TREES → trim_cached_trees s c = c) ∧
      (MAX_CACHED_TREES < c.length → ∀ t b, minPair c = some (t, b) →
        (∃ d, (b, d) ∈ c ∧ d.updated_s = t) ∧
          (∀ p ∈ c, t < p.2.updated_s ∨ (t = p.2.updated_s ∧ b ≤ p.1)) ∧
          trim_cached_trees s c = trim_cached_trees s (dictPop c b)) := by
  constructor
  · intro h
    exact trimAux_of_le c.length c h
  · intro hlt t b hmin
    obtain ⟨hmem, hle⟩ := minPair_spec c t b hmin
    refine ⟨hmem, hle, ?_⟩
    obtain ⟨d, hd, _⟩ := hmem
    have hb : b ∈ c.map Prod.fst := List.mem_map.mpr ⟨(b, d), hd, rfl⟩
    have hlen := dictPop_length c b hb
    rcases hfl : c.length with _ | f
    · rw [hfl] at hlt
      exact absurd hlt (by simp [MAX_CACHED_TREES])
    · have hstep : trimAux (f + 1) c = trimAux f (dictPop c b) := by
        simp only [trimAux, if_pos hlt, hmin]
      unfold trim_cached_trees
      rw [hfl, hstep, show (dictPop c b).length = f by omega]

/-- Witness for trim_evicts_lex_min_entry at concrete inputs: an
under-capacity cache is untouched, and a 33-entry cache with minimum
stamp 10 at buffer 1 evicts exactly that entry first. -/
theorem trim_evicts_lex_min_entry_witness :
    (exSmallCache.length ≤ MAX_CACHED_TREES ∧
        trim_cached_trees 0 exSmallCache = exSmallCache) ∧
      (MAX_CACHED_TREES < exBigCache.length ∧
        minPair exBigCache = some (10, 1) ∧
        ((∃ d, (1, d) ∈ exBigCache ∧ d.updated_s = 10) ∧
          (∀ p ∈ exBigCache,
            10 < p.2.updated_s ∨ (10 = p.2.updated_s ∧ 1 ≤ p.1)) ∧
          trim_cached_trees 0 exBigCache =
            trim_cached_trees 0 (dictPop exBigCache 1))) :=
  ⟨⟨by decide, (trim_evicts_lex_min_entry 0 exSmallCache).1 (by decide)⟩,
    ⟨by decide, by decide,
      (trim_evicts_lex_min_entry 0 exBigCache).2 (by decide) 10 1 (by decide)⟩⟩

/-- Claim C5: a text-change event delivered for a buffer with no existing
cache entry makes the engine perform a full parse of the buffer's
complete current text and cache the resulting tree, instead of applying
an edit or failing; afterwards the tree lookup returns that full-parse
tree. Hypotheses: the scope resolves, the buffer is uncached, the event
carries at least one change, cache keys are duplicate-free, and every
cached stamp precedes the current clock reading. -/
theorem edit_without_entry_full_parses (stl : ScopeToLanguage) (p : Parser)
    (view : View) (changes : List TextChange) (st : EngineState) (s : String)
    (hs : check_scope stl view.scope = some s)
    (hnone : dictGet st.cache view.buffer_id = none)
    (hne : changes ≠ [])
    (hnd : (st.cache.map Prod.fst).Nodup)
    (hclk : ∀ q ∈ st.cache, q.2.updated_s < st.clock) :
    get_tree (on_text_changed_async stl p view changes st).2 view.buffer_id =
      some { src := view.text } := by
  rw [on_text_changed_some stl p view changes st s hs]
  obtain ⟨hc, _⟩ := textLoop_uncached stl s view.text view.buffer_id changes p
    st.cache st.clock hnone hne
  show (dictGet (trim_cached_trees MAX_CACHED_TREES
      (changes.foldl (textLoopStep stl s view.text view.buffer_id)
        (p, st.cache, st.clock)).2.1) view.buffer_id).map TreeDict.tree =
    some { src := view.text }
  rw [hc]
  have hmax : ∀ q ∈ dictSet st.cache view.buffer_id
      (make_tree_dict { src := view.text } (st.clock + changes.length - 1)),
      q.1 ≠ view.buffer_id →
      q.2.updated_s <
        (make_tree_dict { src := view.text } (st.clock + changes.length - 1)).updated_s := by
    intro q hq hqne
    rcases mem_dictSet _ _ _ q hq with h' | h'
    · exact absurd (by rw [h']) hqne
    · have h1 := hclk q h'
      have hlen : 0 < changes.length := List.length_pos.mpr hne
      have h2 : (make_tree_dict { src := view.text }
          (st.clock + changes.length - 1)).updated_s =
          st.clock + changes.length - 1 := rfl
      omega
  rw [trim_survivor MAX_CACHED_TREES _ view.buffer_id _
    (nodup_map_fst_dictSet _ _ _ hnd) (dictGet_dictSet_self _ _ _) hmax]
  rfl

/-- Witness for edit_without_entry_full_parses at a concrete input: an
edit arriving for the uncached buffer 7 leads to a full parse of its
current text. -/
theorem edit_without_entry_full_parses_witness :
    check_scope exScopes exUnsupportedView.scope = none ∧
      check_scope exScopes exView.scope = some "source.python" ∧
      dictGet ([] : Cache) exView.buffer_id = none ∧
      get_tree (on_text_changed_async exScopes { language := none } exView
          [exChange] { cache := [], clock := 0, notifications := [] }).2
          exView.buffer_id =
        some { src := "x = 1\n" } :=
  ⟨by decide, by decide, by decide,
    edit_without_entry_full_parses exScopes { language := none } exView [exChange]
      { cache := [], clock := 0, notifications := [] } "source.python"
      (by decide) (by decide) (by decide) (by decide) (by decide)⟩

/-- Claim C9: a reload or revert event whose scope resolves always
full-parses the buffer's complete current text and replaces the cache
entry with the freshly stamped new tree, discarding whatever tree was
cached before; by contrast, activate and load events are skipped when an
entry already exists. -/
theorem reload_full_reparse_replaces_entry (stl : ScopeToLanguage)
    (st : SystemState) (view : View) (s : String)
    (hs : check_scope stl view.scope = some s)
    (hnd : (st.engine.cache.map Prod.fst).Nodup)
    (hclk : ∀ q ∈ st.engine.cache, q.2.updated_s < st.engine.clock) :
    dictGet (step stl st (Event.reload view)).engine.cache view.buffer_id =
        some (make_tree_dict { src := view.text } st.engine.clock) ∧
      dictGet (step stl st (Event.revert view)).engine.cache view.buffer_id =
        some (make_tree_dict { src := view.text } st.engine.clock) ∧
      ((dictGet st.engine.cache view.buffer_id).isSome →
        step stl st (Event.activated view) = st ∧
          step stl st (Event.load view) = st) := by
  have hwrite : dictGet (trim_cached_trees MAX_CACHED_TREES
      (dictSet st.engine.cache view.buffer_id
        (make_tree_dict { src := view.text } st.engine.clock))) view.buffer_id =
      some (make_tree_dict { src := view.text } st.engine.clock) := by
    apply trim_survivor _ _ _ _ (nodup_map_fst_dictSet _ _ _ hnd)
      (dictGet_dictSet_self _ _ _)
    intro q hq hqne
    rcases mem_dictSet _ _ _ q hq with h' | h'
    · exact absurd (by rw [h']) hqne
    · exact hclk q h'
  refine ⟨?_, ?_, ?_⟩
  · show dictGet (handle_load stl st view).engine.cache view.buffer_id = _
    unfold handle_load
    rw [parse_view_some stl st.listenerParser view true st.engine s hs]
    exact hwrite
  · show dictGet (handle_load stl st view).engine.cache view.buffer_id = _
    unfold handle_load
    rw [parse_view_some stl st.listenerParser view true st.engine s hs]
    exact hwrite
  · intro hsome
    constructor
    · show on_activated_async stl st view = st
      unfold on_activated_async
      rw [if_pos hsome]
    · show on_load_async stl st view = st
      unfold on_load_async
      rw [if_pos hsome]

/-- Witness for reload_full_reparse_replaces_entry at a concrete input: a
state already caching a stale tree for buffer 5 is fully reparsed on
reload and revert, while activate and load are skipped. -/
theorem reload_full_reparse_replaces_entry_witness :
    check_scope exScopes exView.scope = some "source.python" ∧
      (dictGet exCachedState.engine.cache 5).isSome ∧
      (dictGet (step exScopes exCachedState (Event.reload exView)).engine.cache 5 =
          some (make_tree_dict { src := "x = 1\n" } 1) ∧
        dictGet (step exScopes exCachedState (Event.revert exView)).engine.cache 5 =
          some (make_tree_dict { src := "x = 1\n" } 1) ∧
        (step exScopes exCachedState (Event.activated exView) = exCachedState ∧
          step exScopes exCachedState (Event.load exView) = exCachedState)) := by
  have h := reload_full_reparse_replaces_entry exScopes exCachedState exView
    "source.python" (by decide) (by decide) (by decide)
  exact ⟨by decide, by decide, h.1, h.2.1, h.2.2 (by decide)⟩

/-- Claim C10: when the view has no window, the publish operation does
nothing at all — it emits no notification and changes no other state —
while the cache write that triggered it still takes effect: parse_view
leaves the notification log unchanged and still stores the freshly
stamped full-parse entry. -/
theorem windowless_publish_is_noop (stl : ScopeToLanguage) (p : Parser)
    (view : View) (st : EngineState) (s : String)
    (hs : check_scope stl view.scope = some s)
    (hw : view.window = none)
    (hnd : (st.cache.map Prod.fst).Nodup)
    (hclk : ∀ q ∈ st.cache, q.2.updated_s < st.clock) :
    publish_tree_update none view.buffer_id s = [] ∧
      (parse_view stl p view true st).2.notifications = st.notifications ∧
      dictGet (parse_view stl p view true st).2.cache view.buffer_id =
        some (make_tree_dict { src := view.text } st.clock) := by
  refine ⟨rfl, ?_, ?_⟩
  · rw [parse_view_some stl p view true st s hs]
    show st.notifications ++ publish_tree_update view.window view.buffer_id s =
      st.notifications
    rw [hw]
    simp [publish_tree_update]
  · rw [parse_view_some stl p view true st s hs]
    show dictGet (trim_cached_trees MAX_CACHED_TREES
        (dictSet st.cache view.buffer_id
          (make_tree_dict { src := view.text } st.clock))) view.buffer_id = _
    apply trim_survivor _ _ _ _ (nodup_map_fst_dictSet _ _ _ hnd)
      (dictGet_dictSet_self _ _ _)
    intro q hq hqne
    rcases mem_dictSet _ _ _ q hq with h' | h'
    · exact absurd (by rw [h']) hqne
    · exact hclk q h'

/-- Witness for windowless_publish_is_noop at a concrete input: a
windowless view of buffer 5 is parsed and cached with no notification. -/
theorem windowless_publish_is_noop_witness :
    check_scope exScopes (some "source.python") = some "source.python" ∧
      (parse_view exScopes { language := none }
          { scope := some "source.python", buffer_id := 5, text := "x = 1\n",
            window := none } true
          { cache := [], clock := 0, notifications := [] }).2.notifications = [] ∧
      dictGet (parse_view exScopes { language := none }
          { scope := some "source.python", buffer_id := 5, text := "x = 1\n",
            window := none } true
          { cache := [], clock := 0, notifications := [] }).2.cache 5 =
        some (make_tree_dict { src := "x = 1\n" } 0) := by
  have h := windowless_publish_is_noop exScopes { language := none }
    { scope := some "source.python", buffer_id := 5, text := "x = 1\n",
      window := none }
    { cache := [], clock := 0, notifications := [] } "source.python"
    (by decide) (by decide) (by decide) (by decide)
  exact ⟨by decide, h.2.1, h.2.2⟩

theorem handle_load_none_preserved (stl : ScopeToLanguage) (st : SystemState)
    (v : View) (b : Nat) (h : dictGet st.engine.cache b = none)
    (hb : v.buffer_id = b → check_scope stl v.scope = none) :
    dictGet (handle_load stl st v).engine.cache b = none := by
  rcases hsc : check_scope stl v.scope with _ | s
  · unfold handle_load
    rw [parse_view_none stl st.listenerParser v true st.engine hsc]
    exact h
  · have hbid : v.buffer_id ≠ b := by
      intro hv
      rw [hb hv] at hsc
      cases hsc
    unfold handle_load
    rw [parse_view_some stl st.listenerParser v true st.engine s hsc]
    show dictGet (trim_cached_trees MAX_CACHED_TREES
      (dictSet st.engine.cache v.buffer_id
        (make_tree_dict { src := v.text } st.engine.clock))) b = none
    apply dictGet_none_trim
    rw [dictGet_dictSet_ne _ _ _ _ (Ne.symm hbid)]
    exact h

theorem step_none_preserved (stl : ScopeToLanguage) (st : SystemState)
    (e : Event) (b : Nat) (h : dictGet st.engine.cache b = none)
    (hb : (eventView e).buffer_id = b → check_scope stl (eventView e).scope = none) :
    dictGet (step stl st e).engine.cache b = none := by
  cases e with
  | activated v =>
    show dictGet (on_activated_async stl st v).engine.cache b = none
    unfold on_activated_async
    by_cases hsome : (dictGet st.engine.cache v.buffer_id).isSome
    · rw [if_pos hsome]
      exact h
    · rw [if_neg hsome]
      exact handle_load_none_preserved stl st v b h hb
  | load v =>
    show dictGet (on_load_async stl st v).engine.cache b = none
    unfold on_load_async
    by_cases hsome : (dictGet st.engine.cache v.buffer_id).isSome
    · rw [if_pos hsome]
      exact h
    · rw [if_neg hsome]
      exact handle_load_none_preserved stl st v b h hb
  | reload v => exact handle_load_none_preserved stl st v b h hb
  | revert v => exact handle_load_none_preserved stl st v b h hb
  | text_changed v cs =>
    show dictGet (on_text_changed_async stl st.changeParser v cs st.engine).2.cache
      b = none
    rcases hsc : check_scope stl v.scope with _ | s
    · rw [on_text_changed_none stl st.changeParser v cs st.engine hsc]
      exact h
    · have hbid : v.buffer_id ≠ b := by
        intro hv
        have hbv : check_scope stl v.scope = none := hb hv
        rw [hbv] at hsc
        cases hsc
      rw [on_text_changed_some stl st.changeParser v cs st.engine s hsc]
      show dictGet (trim_cached_trees MAX_CACHED_TREES
        (cs.foldl (textLoopStep stl s v.text v.buffer_id)
          (st.changeParser, st.engine.cache, st.engine.clock)).2.1) b = none
      apply dictGet_none_trim
      rw [textLoop_other stl s v.text v.buffer_id cs st.changeParser
        st.engine.cache st.engine.clock b (Ne.symm hbid)]
      exact h

theorem run_none_preserved (stl : ScopeToLanguage) (b : Nat) :
    ∀ (es : List Event) (st : SystemState), dictGet st.engine.cache b = none →
      (∀ e ∈ es, (eventView e).buffer_id = b →
        check_scope stl (eventView e).scope = none) →
      dictGet (run stl st es).engine.cache b = none := by
  intro es
  induction es with
  | nil =>
    intro st h _
    exact h
  | cons e rest ih =>
    intro st h hall
    show dictGet (run stl (step stl st e) rest).engine.cache b = none
    exact ih (step stl st e)
      (step_none_preserved stl st e b h (hall e (List.mem_cons_self _ _)))
      fun e' he' => hall e' (List.mem_cons_of_mem _ he')

/-- Claim C4: a buffer whose scope never resolves (missing, empty, or not
registered in SCOPE_TO_LANGUAGE) never acquires a cache entry through any
prefix of any event sequence — neither through the lifecycle path nor
through the text-change path — and the tree lookup for it always yields
nothing; a cache entry can only exist for a buffer whose events carried a
resolvable scope. -/
theorem unsupported_scope_never_cached (stl : ScopeToLanguage)
    (es : List Event) (b k : Nat)
    (h : ∀ e ∈ es, (eventView e).buffer_id = b →
      check_scope stl (eventView e).scope = none) :
    dictGet (run stl initState (es.take k)).engine.cache b = none ∧
      get_tree (run stl initState (es.take k)).engine b = none := by
  have hnone : dictGet (run stl initState (es.take k)).engine.cache b = none := by
    apply run_none_preserved stl b (es.take k) initState rfl
    intro e he
    exact h e (List.mem_of_mem_take he)
  refine ⟨hnone, ?_⟩
  unfold get_tree
  rw [hnone]
  rfl

/-- Witness for unsupported_scope_never_cached at a concrete input: buffer
7 only ever appears with the unregistered scope "source.cobol", so after
a load, an edit for it, and a supported load of another buffer it still
has no entry and no tree. -/
theorem unsupported_scope_never_cached_witness :
    (∀ e ∈ [Event.load exUnsupportedView,
        Event.text_changed exUnsupportedView [exChange],
        Event.load exOtherView], (eventView e).buffer_id = 7 →
      check_scope exScopes (eventView e).scope = none) ∧
      dictGet (run exScopes initState
          ([Event.load exUnsupportedView,
            Event.text_changed exUnsupportedView [exChange],
            Event.load exOtherView].take 3)).engine.cache 7 = none ∧
      get_tree (run exScopes initState
          ([Event.load exUnsupportedView,
            Event.text_changed exUnsupportedView [exChange],
            Event.load exOtherView].take 3)).engine 7 = none := by
  have h := unsupported_scope_never_cached exScopes
    [Event.load exUnsupportedView,
      Event.text_changed exUnsupportedView [exChange],
      Event.load exOtherView] 7 3 (by decide)
  exact ⟨by decide, h.1, h.2⟩

theorem cacheWrite_nil (b : Nat) (t : Tree) (now : Nat) :
    cacheWrite [] b t now = [(b, make_tree_dict t now)] := rfl

theorem cacheWrite_singleton (b : Nat) (d : TreeDict) (t : Tree) (now : Nat) :
    cacheWrite [(b, d)] b t now = [(b, make_tree_dict t now)] := by
  unfold cacheWrite
  rw [show dictSet [(b, d)] b (make_tree_dict t now) = [(b, make_tree_dict t now)]
    by simp [dictSet]]
  have h1 : ([(b, make_tree_dict t now)] : Cache).length ≤ MAX_CACHED_TREES := by
    simp [MAX_CACHED_TREES]
  exact trimAux_of_le _ _ h1

theorem runWritesFor_from_single (b : Nat) :
    ∀ (ws : List (Tree × Nat)) (d : TreeDict) (w : Tree × Nat),
      ws.getLast? = some w →
      ws.foldl (fun acc q => cacheWrite acc b q.1 q.2) [(b, d)] =
        [(b, make_tree_dict w.1 w.2)] := by
  intro ws
  induction ws with
  | nil =>
    intro d w h
    simp at h
  | cons q rest ih =>
    intro d w h
    rw [List.foldl_cons, cacheWrite_singleton]
    rcases rest with _ | ⟨q2, rest2⟩
    · simp only [List.getLast?_singleton, Option.some.injEq] at h
      rw [h]
      rfl
    · have h2 : (q2 :: rest2).getLast? = some w := by
        rwa [List.getLast?_cons_cons] at h
      exact ih (make_tree_dict q.1 q.2) w h2

theorem getLast?_le_of_pairwise :
    ∀ (l : List Nat), l.Pairwise (· ≤ ·) → ∀ (w : Nat), l.getLast? = some w →
      ∀ x ∈ l, x ≤ w := by
  intro l
  induction l with
  | nil =>
    intro _ w h
    simp at h
  | cons a rest ih =>
    intro hp w h x hx
    rcases rest with _ | ⟨b2, rest2⟩
    · simp only [List.getLast?_singleton, Option.some.injEq] at h
      simp only [List.mem_singleton] at hx
      omega
    · rw [List.getLast?_cons_cons] at h
      rcases List.mem_cons.mp hx with rfl | hx'
      · have hw : w ∈ b2 :: rest2 := List.mem_of_getLast?_eq_some h
        exact (List.pairwise_cons.mp hp).1 w hw
      · exact ih (List.pairwise_cons.mp hp).2 w h x hx'

/-- Claim C7: after any sequence of cache writes for one buffer (the
sequence of puts of property P2, starting from an empty cache), exactly
one cache entry exists for that buffer; it holds the tree of the most
recent write, stamped with that write's monotonic-clock reading, and
since consecutive clock readings never decrease, that final stamp is at
least every earlier write's stamp. -/
theorem single_entry_latest_write (b : Nat) (ws : List (Tree × Nat))
    (w : Tree × Nat) (hlast : ws.getLast? = some w)
    (hmono : (ws.map Prod.snd).Pairwise (· ≤ ·)) :
    runWritesFor b ws = [(b, make_tree_dict w.1 w.2)] ∧
      ∀ x ∈ ws.map Prod.snd, x ≤ w.2 := by
  constructor
  · unfold runWritesFor
    rcases ws with _ | ⟨q, rest⟩
    · simp at hlast
    · rw [List.foldl_cons, cacheWrite_nil]
      rcases rest with _ | ⟨q2, rest2⟩
      · simp only [List.getLast?_singleton, Option.some.injEq] at hlast
        rw [hlast]
        rfl
      · have h2 : (q2 :: rest2).getLast? = some w := by
          rwa [List.getLast?_cons_cons] at hlast
        exact runWritesFor_from_single b (q2 :: rest2) (make_tree_dict q.1 q.2) w h2
  · intro x hx
    apply getLast?_le_of_pairwise (ws.map Prod.snd) hmono w.2 _ x hx
    rw [List.getLast?_map, hlast]
    rfl

theorem trimAux_succ_step (f : Nat) (c : Cache) (t b : Nat)
    (hlt : MAX_CACHED_TREES < c.length) (hmin : minPair c = some (t, b)) :
    trimAux (f + 1) c = trimAux f (dictPop c b) := by
  simp only [trimAux, if_pos hlt, hmin]

theorem runWrites_window (ws : List (Nat × Tree × Nat)) :
    (ws.map (fun w => w.1)).Nodup →
    (ws.map (fun w => w.2.2)).Pairwise (· < ·) →
    runWrites [] ws = (ws.drop (ws.length - MAX_CACHED_TREES)).map entryOf := by
  induction ws using List.reverseRecOn with
  | nil =>
    intro _ _
    rfl
  | append_singleton l a ih =>
    intro h1 h2
    have hM : MAX_CACHED_TREES = 32 := rfl
    rw [List.map_append] at h1 h2
    obtain ⟨h1l, -, hdisj⟩ := List.nodup_append.mp h1
    obtain ⟨h2l, -, hcross⟩ := List.pairwise_append.mp h2
    have hafresh : a.1 ∉ l.map (fun w => w.1) := by
      intro hmem
      exact hdisj hmem (by simp)
    have hlt : ∀ w ∈ l, w.2.2 < a.2.2 := by
      intro w hw
      exact hcross w.2.2 (List.mem_map.mpr ⟨w, hw, rfl⟩) a.2.2 (by simp)
    have hW := ih h1l h2l
    have hrun : runWrites [] (l ++ [a]) =
        cacheWrite (runWrites [] l) a.1 a.2.1 a.2.2 := by
      unfold runWrites
      rw [List.foldl_append]
      rfl
    set k := l.length - MAX_CACHED_TREES with hk
    have hkeysW : ((l.drop k).map entryOf).map Prod.fst =
        (l.drop k).map (fun w => w.1) := by
      rw [List.map_map]
      rfl
    have hfreshW : a.1 ∉ ((l.drop k).map entryOf).map Prod.fst := by
      rw [hkeysW]
      intro hmem
      rcases List.mem_map.mp hmem with ⟨w, hw, hweq⟩
      exact hafresh
        (List.mem_map.mpr ⟨w, (List.drop_sublist k l).subset hw, hweq⟩)
    have hset : dictSet ((l.drop k).map entryOf) a.1
        (make_tree_dict a.2.1 a.2.2) =
        ((l.drop k).map entryOf) ++ [entryOf a] :=
      dictSet_of_not_mem _ _ _ hfreshW
    rw [hrun, hW]
    unfold cacheWrite
    rw [hset]
    by_cases hbig : MAX_CACHED_TREES ≤ l.length
    · -- over (or at) capacity before the write: one eviction happens
      have hlendrop : (l.drop k).length = MAX_CACHED_TREES := by
        rw [List.length_drop]
        omega
      have hne : l.drop k ≠ [] := by
        intro h0
        rw [h0] at hlendrop
        simp [MAX_CACHED_TREES] at hlendrop
      obtain ⟨w0, ldk', hldk⟩ := List.exists_cons_of_ne_nil hne
      have hlen' := hlendrop
      rw [hldk] at hlen'
      simp only [List.length_cons] at hlen'
      have hPdrop : ((l.drop k).map (fun w => w.2.2)).Pairwise (· < ·) :=
        List.Pairwise.sublist ((List.drop_sublist k l).map (fun w => w.2.2)) h2l
      have hP2 : ((w0 :: ldk').map (fun w => w.2.2)).Pairwise (· < ·) := by
        rw [← hldk]
        exact hPdrop
      have hw0l : w0 ∈ l :=
        (List.drop_sublist k l).subset (by rw [hldk]; exact List.mem_cons_self _ _)
      have hX : ((l.drop k).map entryOf) ++ [entryOf a] =
          (w0.1, make_tree_dict w0.2.1 w0.2.2) ::
            (ldk'.map entryOf ++ [entryOf a]) := by
        rw [hldk]
        rfl
      have hmin : minPair (((l.drop k).map entryOf) ++ [entryOf a]) =
          some (w0.2.2, w0.1) := by
        rw [hX]
        apply minPair_of_head_lt
        intro p hp
        rcases List.mem_append.mp hp with hp' | hp'
        · rcases List.mem_map.mp hp' with ⟨w, hw, rfl⟩
          show w0.2.2 < w.2.2
          exact (List.pairwise_cons.mp hP2).1 w.2.2 (List.mem_map.mpr ⟨w, hw, rfl⟩)
        · rw [List.mem_singleton.mp hp']
          show w0.2.2 < a.2.2
          exact hlt w0 hw0l
      have hXlen : (((l.drop k).map entryOf) ++ [entryOf a]).length =
          MAX_CACHED_TREES + 1 := by
        simp only [List.length_append, List.length_map, List.length_singleton]
        omega
      have hpop : dictPop (((l.drop k).map entryOf) ++ [entryOf a]) w0.1 =
          ldk'.map entryOf ++ [entryOf a] := by
        rw [hX]
        exact dictPop_cons_self _ _ _
      have htail_len : (ldk'.map entryOf ++ [entryOf a]).length =
          MAX_CACHED_TREES := by
        simp only [List.length_append, List.length_map, List.length_singleton]
        omega
      have htrim : trim_cached_trees MAX_CACHED_TREES
          (((l.drop k).map entryOf) ++ [entryOf a]) =
          ldk'.map entryOf ++ [entryOf a] := by
        show trimAux (((l.drop k).map entryOf) ++ [entryOf a]).length
          (((l.drop k).map entryOf) ++ [entryOf a]) =
          ldk'.map entryOf ++ [entryOf a]
        rw [hXlen, trimAux_succ_step MAX_CACHED_TREES _ w0.2.2 w0.1
          (by rw [hXlen]; omega) hmin, hpop]
        exact trimAux_of_le _ _ (le_of_eq htail_len)
      have hRHS : (l ++ [a]).drop ((l ++ [a]).length - MAX_CACHED_TREES) =
          ldk' ++ [a] := by
        have hlen2 : (l ++ [a]).length - MAX_CACHED_TREES = k + 1 := by
          simp only [List.length_append, List.length_singleton]
          omega
        rw [hlen2, List.drop_append_of_le_length (by omega : k + 1 ≤ l.length)]
        congr 1
        rw [← List.tail_drop l k, hldk]
        rfl
      rw [htrim, hRHS, List.map_append]
      rfl
    · -- still under capacity: nothing is evicted
      have hk0 : k = 0 := by omega
      have hlen : (((l.drop k).map entryOf) ++ [entryOf a]).length ≤
          MAX_CACHED_TREES := by
        simp only [List.length_append, List.length_map, List.length_drop,
          List.length_singleton]
        omega
      rw [trim_of_le _ _ hlen]
      have hk1 : (l ++ [a]).length - MAX_CACHED_TREES = 0 := by
        simp only [List.length_append, List.length_singleton]
        omega
      rw [hk1, hk0]
      simp [List.map_append]

/-- Claim C2: for any sequence of cache writes for pairwise-distinct
buffers carrying strictly increasing monotonic-clock stamps, the cache
holds at most MAX_CACHED_TREES (32) entries after every write-plus-trim
(every prefix of the sequence), and once more than 32 writes have
occurred the retained entries are exactly the last 32 writes — the ones
with the 32 largest timestamps. -/
theorem cache_bounded_retains_newest (ws : List (Nat × Tree × Nat)) (k : Nat)
    (h1 : (ws.map (fun w => w.1)).Nodup)
    (h2 : (ws.map (fun w => w.2.2)).Pairwise (· < ·)) :
    (runWrites [] (ws.take k)).length ≤ MAX_CACHED_TREES ∧
      (MAX_CACHED_TREES < ws.length →
        runWrites [] ws =
          (ws.drop (ws.length - MAX_CACHED_TREES)).map entryOf) := by
  constructor
  · have h1t : ((ws.take k).map (fun w => w.1)).Nodup :=
      List.Nodup.sublist ((List.take_sublist k ws).map (fun w => w.1)) h1
    have h2t : ((ws.take k).map (fun w => w.2.2)).Pairwise (· < ·) :=
      List.Pairwise.sublist ((List.take_sublist k ws).map (fun w => w.2.2)) h2
    rw [runWrites_window (ws.take k) h1t h2t, List.length_map, List.length_drop]
    omega
  · intro _
    exact runWrites_window ws h1 h2

/-- Witness for cache_bounded_retains_newest at a concrete input: 33
writes for buffers 0..32 with stamps 0..32; every prefix stays within
capacity and the final cache retains exactly writes 1..32. -/
theorem cache_bounded_retains_newest_witness :
    (exWrites.map (fun w => w.1)).Nodup ∧
      (exWrites.map (fun w => w.2.2)).Pairwise (· < ·) ∧
      ((runWrites [] (exWrites.take 10)).length ≤ MAX_CACHED_TREES ∧
        (MAX_CACHED_TREES < exWrites.length →
          runWrites [] exWrites =
            (exWrites.drop (exWrites.length - MAX_CACHED_TREES)).map entryOf)) :=
  ⟨by decide, by decide,
    cache_bounded_retains_newest exWrites 10 (by decide) (by decide)⟩

/-- Witness for single_entry_latest_write at a concrete input: two writes
for buffer 1 with stamps 0 then 1 leave exactly the second entry. -/
theorem single_entry_latest_write_witness :
    ([(({ src := "a" } : Tree), 0), (({ src := "b" } : Tree), 1)].getLast? =
        some (({ src := "b" } : Tree), 1)) ∧
      ([(({ src := "a" } : Tree), 0),
        (({ src := "b" } : Tree), 1)].map Prod.snd).Pairwise (· ≤ ·) ∧
      (runWritesFor 1 [({ src := "a" }, 0), ({ src := "b" }, 1)] =
          [(1, make_tree_dict { src := "b" } 1)] ∧
        ∀ x ∈ ([(({ src := "a" } : Tree), 0),
          (({ src := "b" } : Tree), 1)].map Prod.snd), x ≤ 1) :=
  ⟨by decide, by decide,
    single_entry_latest_write 1 [({ src := "a" }, 0), ({ src := "b" }, 1)]
      ({ src := "b" }, 1) (by decide) (by decide)⟩

end TreeSitter
